import Mathlib

/-!
# Verification of the contract ingestion and retrieval pipeline

A shallow embedding, in Lean 4, of the core components of the
contract-document system:

* the token chunker (`DocumentProcessor._split_text`),
* the document-type classifier (`DocumentProcessor._detect_document_type`),
* the ingestion-side type detection (`DocumentIndexer.index_document`),
* the vector-store operations (`DocumentIndexer.index_nodes`,
  `DocumentIndexer.delete_document`, `VectorStorage.store_chunks`),
* the query engine (`QueryEngine.query`): metadata shortcut, fair-coverage
  citation selection, citation grounding, and
* the process-wide singleton construction (`DocumentProcessor.__new__`).

Machine integers do not occur on the verified paths; Python `int` is modelled
as `Nat`/`Int`.  Relevance scores and confidences (Python floats holding exact
decimal constants such as `0.01`, `0.5`, `1.0`) are modelled as rationals.
External services (embedding, reranking, the language model, the vector
store) are modelled as explicit oracle parameters; points where the code
calls out to a service are recorded in an explicit call trace.
-/

namespace Contracts

/-! ## Python string / list primitives -/

/-- Python slice `lst[-k:]`.  Note the Python pitfall that `lst[-0:]` is the
whole list (`-0 == 0`), not the empty list; for `0 < k ≤ len` it is the last
`k` elements, and for `k > len` the whole list. -/
def pyLastSlice (l : List α) (k : Nat) : List α :=
  if k = 0 then l else l.drop (l.length - k)

/-- Python `str.lower()` on a character list. -/
def lowerCh (l : List Char) : List Char :=
  l.map Char.toLower

/-- Python `str.strip()` on a character list: remove leading and trailing
whitespace. -/
def stripCh (l : List Char) : List Char :=
  ((l.dropWhile Char.isWhitespace).reverse.dropWhile Char.isWhitespace).reverse

/-- Python `str.split()` (no argument): split on whitespace runs, dropping
empty pieces.  `acc` accumulates the current word in reverse. -/
def splitWsAux : List Char → List Char → List (List Char)
  | [], acc => if acc.isEmpty then [] else [acc.reverse]
  | c :: cs, acc =>
    if c.isWhitespace then
      if acc.isEmpty then splitWsAux cs [] else acc.reverse :: splitWsAux cs []
    else
      splitWsAux cs (c :: acc)

def splitWs (l : List Char) : List (List Char) :=
  splitWsAux l []

/-- Python `' '.join(words)` on character lists. -/
def joinWordsCh : List (List Char) → List Char
  | [] => []
  | w :: ws => w ++ (ws.map (fun r => ' ' :: r)).flatten

/-- The helper `QueryEngine.query.normalize_text`: `' '.join(text.split())`, at the
character-list level. -/
def normChars (l : List Char) : List Char :=
  joinWordsCh (splitWs l)

/-- Python substring test `needle in haystack`, as a Boolean on character
lists. -/
def containsSub (haystack needle : List Char) : Bool :=
  (List.range (haystack.length + 1)).any (fun i => needle.isPrefixOf (haystack.drop i))

/-- Python `needle in haystack` on strings (e.g. `term in filename_lower`). -/
def strContains (haystack needle : String) : Bool :=
  containsSub haystack.toList needle.toList

theorem containsSub_iff (haystack needle : List Char) :
    containsSub haystack needle = true ↔ needle <:+: haystack := by
  constructor
  · intro h
    rcases List.any_eq_true.mp h with ⟨i, _, hpre⟩
    rcases List.isPrefixOf_iff_prefix.mp hpre with ⟨s, hs⟩
    exact ⟨haystack.take i, s, by rw [List.append_assoc, hs, List.take_append_drop]⟩
  · intro ⟨s, t, hst⟩
    refine List.any_eq_true.mpr ⟨s.length, ?_, ?_⟩
    · refine List.mem_range.mpr ?_
      have := congrArg List.length hst
      simp at this
      omega
    · refine List.isPrefixOf_iff_prefix.mpr ⟨t, ?_⟩
      rw [← hst, List.append_assoc, List.drop_left]

/-! ## Chunker: `DocumentProcessor._split_text`

Tokens (`tiktoken` token ids) are modelled as `Nat`.  The loop accumulates
tokens into `cur`, tracking `sz` (`current_size`); when
`current_size >= self.chunk_size` holds at the top of an iteration the window
is emitted and re-seeded with `current_chunk[-self.chunk_overlap:]`
(`current_size` is reset to the window's length), then the current token is
appended; a non-empty final window is emitted after the loop. -/

def splitLoop (cs ov : Nat) : List Nat → List Nat → Nat → List (List Nat)
  | [], cur, _ => if cur.isEmpty then [] else [cur]
  | t :: ts, cur, sz =>
    if cs ≤ sz then
      cur :: splitLoop cs ov ts (pyLastSlice cur ov ++ [t]) ((pyLastSlice cur ov).length + 1)
    else
      splitLoop cs ov ts (cur ++ [t]) (sz + 1)

/-- The chunker `DocumentProcessor._split_text`, on the token stream. -/
def splitText (cs ov : Nat) (tokens : List Nat) : List (List Nat) :=
  splitLoop cs ov tokens [] 0

/-- Concatenate chunk token streams with each inter-chunk overlap removed:
the first chunk whole, every later chunk with its first `ov` tokens dropped. -/
def reconstruct (ov : Nat) : List (List Nat) → List Nat
  | [] => []
  | c :: rest => c ++ (rest.map (List.drop ov)).flatten

/-- Generalisation of `reconstruct` used in the loop invariant: the head
chunk loses its first `k` tokens. -/
def dropHeadJoin (ov : Nat) : List (List Nat) → Nat → List Nat
  | [], _ => []
  | c :: rest, k => c.drop k ++ (rest.map (List.drop ov)).flatten

theorem dropHeadJoin_ov (ov : Nat) (l : List (List Nat)) :
    dropHeadJoin ov l ov = (l.map (List.drop ov)).flatten := by
  cases l <;> simp [dropHeadJoin]

theorem splitLoop_cons_ge {cs ov sz : Nat} {t : Nat} {ts cur : List Nat}
    (h : cs ≤ sz) :
    splitLoop cs ov (t :: ts) cur sz =
      cur :: splitLoop cs ov ts (pyLastSlice cur ov ++ [t])
        ((pyLastSlice cur ov).length + 1) := by
  rw [splitLoop, if_pos h]

theorem splitLoop_cons_lt {cs ov sz : Nat} {t : Nat} {ts cur : List Nat}
    (h : ¬ cs ≤ sz) :
    splitLoop cs ov (t :: ts) cur sz = splitLoop cs ov ts (cur ++ [t]) (sz + 1) := by
  rw [splitLoop, if_neg h]

theorem pyLastSlice_length_of_pos {l : List α} {k : Nat} (hk : k ≠ 0)
    (hle : k ≤ l.length) : (pyLastSlice l k).length = k := by
  simp [pyLastSlice, hk]
  omega

theorem splitLoop_reconstruct (cs ov : Nat) (hov : 0 < ov) (hcs : ov < cs) :
    ∀ (ts cur : List Nat) (k : Nat), cur.length ≤ cs → k ≤ cur.length →
      dropHeadJoin ov (splitLoop cs ov ts cur cur.length) k = cur.drop k ++ ts := by
  intro ts
  induction ts with
  | nil =>
    intro cur k _ _
    by_cases hc : cur.isEmpty
    · simp_all [splitLoop, dropHeadJoin, List.isEmpty_iff]
    · simp [splitLoop, hc, dropHeadJoin]
  | cons t ts ih =>
    intro cur k hlen hk
    by_cases hfull : cs ≤ cur.length
    · have hcl : cur.length = cs := le_antisymm hlen hfull
      rw [splitLoop_cons_ge hfull]
      generalize hres : pyLastSlice cur ov = res
      have hsl : res.length = ov := by
        rw [← hres]; exact pyLastSlice_length_of_pos (by omega) (by omega)
      have e : (res ++ [t]).length = res.length + 1 := by simp
      have hrec := ih (res ++ [t]) ov (by rw [e, hsl]; omega) (by rw [e, hsl]; omega)
      have hdrop : (res ++ [t]).drop ov = [t] := by
        rw [← hsl]; exact List.drop_left res [t]
      simp only [dropHeadJoin]
      rw [show res.length + 1 = (res ++ [t]).length from by simp,
        ← dropHeadJoin_ov, hrec, hdrop]
      simp
    · push_neg at hfull
      rw [splitLoop_cons_lt (by omega)]
      have e : (cur ++ [t]).length = cur.length + 1 := by simp
      rw [← e]
      have hrec := ih (cur ++ [t]) k (by simp; omega) (by simp; omega)
      rw [hrec, List.drop_append_of_le_length hk]
      simp

theorem splitLoop_ne_nil (cs ov : Nat) :
    ∀ (ts cur : List Nat) (sz : Nat), cur ≠ [] ∨ ts ≠ [] →
      splitLoop cs ov ts cur sz ≠ [] := by
  intro ts
  induction ts with
  | nil =>
    intro cur sz h
    have hc : cur ≠ [] := by tauto
    simp [splitLoop, List.isEmpty_iff, hc]
  | cons t ts ih =>
    intro cur sz _
    by_cases hfull : cs ≤ sz
    · rw [splitLoop_cons_ge hfull]
      simp
    · rw [splitLoop_cons_lt hfull]
      exact ih _ _ (Or.inl (by simp))

/-- Variant of `splitLoop_ne_nil` for a non-empty window (the re-seeded
window always contains at least the freshly appended token). -/
theorem splitLoop_ne_nil' {cs ov sz : Nat} {ts res : List Nat} {t : Nat} :
    splitLoop cs ov ts (res ++ [t]) sz ≠ [] :=
  splitLoop_ne_nil cs ov ts (res ++ [t]) sz (Or.inl (by simp))

theorem splitLoop_dropLast_length (cs ov : Nat) (hov : 0 < ov) (hcs : ov < cs) :
    ∀ (ts cur : List Nat), cur.length ≤ cs →
      ∀ c ∈ (splitLoop cs ov ts cur cur.length).dropLast, c.length = cs := by
  intro ts
  induction ts with
  | nil =>
    intro cur _ c hc
    by_cases he : cur.isEmpty <;> simp_all [splitLoop]
  | cons t ts ih =>
    intro cur hlen c hc
    by_cases hfull : cs ≤ cur.length
    · have hcl : cur.length = cs := le_antisymm hlen hfull
      rw [splitLoop_cons_ge hfull] at hc
      generalize hres : pyLastSlice cur ov = res at hc
      have hsl : res.length = ov := by
        rw [← hres]; exact pyLastSlice_length_of_pos (by omega) (by omega)
      have hne : splitLoop cs ov ts (res ++ [t]) (res.length + 1) ≠ [] := by
        apply splitLoop_ne_nil'
      rw [List.dropLast_cons_of_ne_nil hne] at hc
      rcases List.mem_cons.mp hc with rfl | hmem
      · exact hcl
      · have e : (res ++ [t]).length = res.length + 1 := by simp
        refine ih (res ++ [t]) (by rw [e, hsl]; omega) c ?_
        rw [e]
        exact hmem
    · push_neg at hfull
      rw [splitLoop_cons_lt (by omega)] at hc
      have e : (cur ++ [t]).length = cur.length + 1 := by simp
      rw [← e] at hc
      exact ih (cur ++ [t]) (by simp; omega) c hc

theorem splitLoop_head_prefix (cs ov : Nat) :
    ∀ (ts cur : List Nat) (sz : Nat), cur ≠ [] →
      ∃ h rest, splitLoop cs ov ts cur sz = h :: rest ∧ cur <+: h := by
  intro ts
  induction ts with
  | nil =>
    intro cur sz hc
    refine ⟨cur, [], ?_, List.prefix_refl cur⟩
    simp [splitLoop, List.isEmpty_iff, hc]
  | cons t ts ih =>
    intro cur sz hc
    by_cases hfull : cs ≤ sz
    · rw [splitLoop_cons_ge hfull]
      exact ⟨cur, _, rfl, List.prefix_refl cur⟩
    · rw [splitLoop_cons_lt hfull]
      obtain ⟨h, rest, heq, hpre⟩ := ih (cur ++ [t]) (sz + 1) (by simp)
      exact ⟨h, rest, heq, (List.prefix_append cur [t]).trans hpre⟩

theorem prefix_take_eq {p l : List α} (h : p <+: l) {n : Nat} (hn : n ≤ p.length) :
    l.take n = p.take n := by
  obtain ⟨s, rfl⟩ := h
  exact List.take_append_of_le_length hn

theorem splitLoop_chain (cs ov : Nat) (hov : 0 < ov) (hcs : ov < cs) :
    ∀ (ts cur : List Nat), cur.length ≤ cs →
      List.Chain' (fun a b => b.take ov = a.drop (a.length - ov))
        (splitLoop cs ov ts cur cur.length) := by
  intro ts
  induction ts with
  | nil =>
    intro cur _
    by_cases he : cur.isEmpty <;> simp [splitLoop, he]
  | cons t ts ih =>
    intro cur hlen
    by_cases hfull : cs ≤ cur.length
    · have hcl : cur.length = cs := le_antisymm hlen hfull
      rw [splitLoop_cons_ge hfull]
      generalize hres : pyLastSlice cur ov = res
      have hsl : res.length = ov := by
        rw [← hres]; exact pyLastSlice_length_of_pos (by omega) (by omega)
      have hresval : res = cur.drop (cur.length - ov) := by
        rw [← hres, pyLastSlice, if_neg (by omega)]
      have e : (res ++ [t]).length = res.length + 1 := by simp
      refine List.chain'_cons'.mpr ⟨?_, ?_⟩
      · intro y hy
        obtain ⟨hh, rest, heq, hpre⟩ :=
          splitLoop_head_prefix cs ov ts (res ++ [t]) (res.length + 1) (by simp)
        have htake : hh.take ov = cur.drop (cur.length - ov) := by
          rw [prefix_take_eq hpre (by rw [e, hsl]; omega),
            List.take_append_of_le_length (by omega), ← hresval, ← hsl,
            List.take_length]
        rw [heq] at hy
        simp only [List.head?_cons, Option.mem_def, Option.some.injEq] at hy
        cases hy
        exact htake
      · have := ih (res ++ [t]) (by rw [e, hsl]; omega)
        rw [e] at this
        exact this
    · push_neg at hfull
      rw [splitLoop_cons_lt (by omega)]
      have e : (cur ++ [t]).length = cur.length + 1 := by simp
      rw [← e]
      exact ih (cur ++ [t]) (by simp; omega)

theorem reconstruct_eq_dropHeadJoin (ov : Nat) (l : List (List Nat)) :
    reconstruct ov l = dropHeadJoin ov l 0 := by
  cases l <;> simp [reconstruct, dropHeadJoin]

/-- C4 (amended): for `0 < chunk_overlap < chunk_size`, every chunk except
possibly the last has exactly `chunk_size` tokens, each chunk's last
`chunk_overlap` tokens reappear verbatim as the next chunk's first tokens,
concatenating the chunks with each overlap removed reconstructs the token
stream, and a (possibly partial) trailing window is emitted whenever the
token stream is non-empty. -/
theorem c4_chunker_amended (cs ov : Nat) (tokens : List Nat)
    (hov : 0 < ov) (hcs : ov < cs) :
    (∀ c ∈ (splitText cs ov tokens).dropLast, c.length = cs) ∧
    List.Chain' (fun a b => b.take ov = a.drop (a.length - ov))
      (splitText cs ov tokens) ∧
    reconstruct ov (splitText cs ov tokens) = tokens ∧
    (tokens ≠ [] → splitText cs ov tokens ≠ []) := by
  refine ⟨?_, ?_, ?_, ?_⟩
  · exact splitLoop_dropLast_length cs ov hov hcs tokens [] (by simp)
  · exact splitLoop_chain cs ov hov hcs tokens [] (by simp)
  · rw [reconstruct_eq_dropHeadJoin]
    have := splitLoop_reconstruct cs ov hov hcs tokens [] 0 (by simp) (by simp)
    simpa using this
  · intro h
    exact splitLoop_ne_nil cs ov tokens [] 0 (Or.inr h)

theorem c4_chunker_amended_witness :
    reconstruct 1 (splitText 2 1 [5, 6, 7]) = [5, 6, 7] :=
  (c4_chunker_amended 2 1 [5, 6, 7] (by decide) (by decide)).2.2.1

/-- C4 (counterexample): with `chunk_overlap = 0 < 2 = chunk_size` (allowed by
the claim's hypothesis `chunk_overlap < chunk_size`), the Python slice
`current_chunk[-0:]` re-seeds with the *whole* emitted window, so the overlap
removal does not reconstruct the stream; and for empty input no trailing
window is emitted. -/
theorem c4_chunker_counterexample :
    splitText 2 0 [0, 1, 2] = [[0, 1], [0, 1, 2]] ∧
    reconstruct 0 (splitText 2 0 [0, 1, 2]) ≠ [0, 1, 2] ∧
    splitText 2 1 [] = [] := by
  refine ⟨by decide, by decide, by decide⟩

/-! ## Type classifier: `DocumentProcessor._detect_document_type`

An additive scoring table over the four candidate types, fed by a mutually
exclusive filename pass and an additive hint pass, resolved by Python
`max(type_scores.items(), key=...)` (which keeps the *first* item attaining
the maximal value, in dict insertion order master, amendment, sow,
change_order), with a secondary filename fallback used only when every score
is zero.  The `text` argument is lowercased and truncated to 150 characters
by the code but never scored (it is only logged). -/

structure TypeScores where
  master : Nat
  amendment : Nat
  sow : Nat
  change_order : Nat
deriving DecidableEq, Repr

/-- Substring test of a lowercase pattern inside a lowercased character
list. -/
def chHas (l : List Char) (pat : String) : Bool :=
  containsSub l pat.toList

/-- The mutually exclusive filename pass (first matching bucket wins):
master-like terms score 19, the other buckets 20. -/
def filenameScores (filename_lower : List Char) : TypeScores :=
  if ["master", "msa", "_mst_"].any (chHas filename_lower) then ⟨19, 0, 0, 0⟩
  else if ["amendment", "amd", "addendum"].any (chHas filename_lower) then ⟨0, 20, 0, 0⟩
  else if ["sow", "statement"].any (chHas filename_lower) then ⟨0, 0, 20, 0⟩
  else if ["change", "co_"].any (chHas filename_lower) then ⟨0, 0, 0, 20⟩
  else ⟨0, 0, 0, 0⟩

/-- One iteration of the hint loop: `amendment`/`addendum` scores +10 to
amendment; then `master` scores +5 to amendment when the hint is a
*reference* to a master agreement, else +8 to master; otherwise
sow / change-order hints score +10. -/
def scoreHint (s : TypeScores) (hint : String) : TypeScores :=
  let hl := lowerCh hint.toList
  let isRefToMaster := ["to master", "to the master", "pursuant to master",
    "under master", "reference to master"].any (chHas hl)
  let s1 := if chHas hl "amendment" || chHas hl "addendum" then
      { s with amendment := s.amendment + 10 } else s
  if chHas hl "master" then
    if isRefToMaster then { s1 with amendment := s1.amendment + 5 }
    else { s1 with master := s1.master + 8 }
  else if chHas hl "sow" || chHas hl "statement of work" then
    { s1 with sow := s1.sow + 10 }
  else if chHas hl "change order" then
    { s1 with change_order := s1.change_order + 10 }
  else s1

/-- Accumulated scores after the filename pass and the hint pass. -/
def typeScoresOf (filename : String) (hints : List String) : TypeScores :=
  hints.foldl scoreHint (filenameScores (lowerCh filename.toList))

def maxScore (s : TypeScores) : Nat :=
  max (max s.master s.amendment) (max s.sow s.change_order)

/-- Python `max(type_scores.items(), key=lambda x: x[1])[0]`: the first key,
in dict insertion order, attaining the maximal score. -/
def pickMaxFirst (s : TypeScores) : String :=
  let m := maxScore s
  if s.master = m then "master"
  else if s.amendment = m then "amendment"
  else if s.sow = m then "sow"
  else "change_order"

/-- The secondary filename check used when every score is zero. -/
def fallbackType (filename_lower : List Char) : String :=
  if ["sow", "statement", "work"].any (chHas filename_lower) then "sow"
  else if ["amend", "amendment"].any (chHas filename_lower) then "amendment"
  else if ["change", "order", "co"].any (chHas filename_lower) then "change_order"
  else "master"

/-- The `level_map` dict of `_detect_document_type`, together with its
`.get(doc_type, 1)` default. -/
def levelMap (docType : String) : Nat :=
  if docType = "master" then 1
  else if docType = "amendment" then 2
  else if docType = "sow" then 3
  else if docType = "change_order" then 4
  else 1

/-- The classifier `DocumentProcessor._detect_document_type`. -/
def detectDocumentType (text : String) (filename : String) (hints : List String) :
    String × Nat :=
  -- text_lower = text[:150].lower() is computed and printed but never scored
  let _text_lower := lowerCh (text.toList.take 150)
  let filename_lower := lowerCh filename.toList
  let s := typeScoresOf filename hints
  let doc_type := if maxScore s = 0 then fallbackType filename_lower else pickMaxFirst s
  (doc_type, levelMap doc_type)

/-- The candidate types in dict insertion order. -/
def typeOrder : List String := ["master", "amendment", "sow", "change_order"]

def scoreOf (s : TypeScores) (t : String) : Nat :=
  if t = "master" then s.master
  else if t = "amendment" then s.amendment
  else if t = "sow" then s.sow
  else if t = "change_order" then s.change_order
  else 0

/-- Modelled from the spec: the fixed level map of the data model,
`{master: 1, amendment: 2, sow: 3, change_order: 4, unknown: 1}` (any
other/unknown type maps to 1). -/
def specLevelMap (docType : String) : Nat :=
  if docType = "master" then 1
  else if docType = "amendment" then 2
  else if docType = "sow" then 3
  else if docType = "change_order" then 4
  else 1

/-! ## Ingestion-side type detection: `DocumentIndexer.index_document`

Detection over `search_text = f"{doc_name_lower} {pdf_title} {first_page_text}"`
(all three components lowercased by the caller). -/

def indexerSearchText (docName pdfTitle firstPage : String) : String :=
  String.mk (lowerCh docName.toList) ++ " " ++ String.mk (lowerCh pdfTitle.toList)
    ++ " " ++ String.mk (lowerCh firstPage.toList)

/-- The type/level detection of `DocumentIndexer.index_document`; note the
initial assignment `doc_type = "other"; level = 4` that survives when no
branch fires. -/
def indexerDetect (searchText : String) : String × Nat :=
  let has := fun (pat : String) => strContains searchText pat
  if ["addendum", "amendment", "modification", "supplement"].any has then
    if ["master", "msa"].any has then
      if ["addendum", "amendment", "modification", "supplement"].any
          (fun m => has (m ++ " to master")) then
        ("amendment", 2)
      else ("master", 1)
    else ("amendment", 2)
  else if ["master", "msa", "agreement"].any has then ("master", 1)
  else if has "sow" || has "statement of work" then ("sow", 3)
  else if has "change order" then ("change_order", 4)
  else ("other", 4)

/-- C1 (counterexample): for the file `"Amendment_1_to_MSA.pdf"` whose
first-page hint is `"Amendment to Master Agreement"`, the classifier returns
`(master, 1)`, not `(amendment, 2)`: the mutually exclusive filename pass
checks master-like terms first and `"msa"` occurs in the filename, scoring
master 19, which beats the hint-derived amendment score 15 (10 + the
5-point reference bonus). -/
theorem c1_classifier_counterexample :
    detectDocumentType "" "Amendment_1_to_MSA.pdf" ["Amendment to Master Agreement"]
        ≠ ("amendment", 2) ∧
    detectDocumentType "" "Amendment_1_to_MSA.pdf" ["Amendment to Master Agreement"]
        = ("master", 1) ∧
    typeScoresOf "Amendment_1_to_MSA.pdf" ["Amendment to Master Agreement"]
        = ⟨19, 15, 0, 0⟩ := by
  refine ⟨by decide, by decide, by decide⟩

/-- C1 (amended): for every first-page text, uploading
`"Amendment_1_to_MSA.pdf"` with the hint `"Amendment to Master Agreement"`
yields `(master, 1)`: the filename's `"msa"` substring fires the master
bucket (19 points, mutually exclusive, checked first), which the hint pass's
amendment score of 15 (10 for "amendment" plus the 5-point
reference-to-master bonus) does not overturn. -/
theorem c1_classifier_amended (text : String) :
    detectDocumentType text "Amendment_1_to_MSA.pdf" ["Amendment to Master Agreement"]
      = ("master", 1) := by
  rfl

/-- C8 (counterexample): on a three-way non-zero tie the classifier does
*not* fall back to the secondary filename check; Python `max` keeps the first
key (dict order) attaining the maximum, here `amendment`, whereas the
secondary check on `"doc.pdf"` would have yielded `master`. -/
theorem c8_resolution_counterexample :
    typeScoresOf "doc.pdf" ["amendment", "sow", "change order"] = ⟨0, 10, 10, 10⟩ ∧
    fallbackType (lowerCh "doc.pdf".toList) = "master" ∧
    detectDocumentType "" "doc.pdf" ["amendment", "sow", "change order"]
      = ("amendment", 2) := by
  refine ⟨by decide, by decide, by decide⟩

/-- C8 (amended): when some score is non-zero the resolved type is the
*first* candidate, in the fixed order master, amendment, sow, change_order,
attaining the maximum accumulated score (so a strict maximum always wins,
but ties of any arity are broken by that order, not by the fallback); the
secondary filename check is used exactly when every score is zero. -/
theorem c8_resolution_amended (text filename : String) (hints : List String) :
    (maxScore (typeScoresOf filename hints) ≠ 0 →
      typeOrder.find? (fun t =>
          scoreOf (typeScoresOf filename hints) t == maxScore (typeScoresOf filename hints))
        = some (detectDocumentType text filename hints).1) ∧
    (maxScore (typeScoresOf filename hints) = 0 →
      (detectDocumentType text filename hints).1 = fallbackType (lowerCh filename.toList)) := by
  constructor
  · intro hne
    have hd : (detectDocumentType text filename hints).1
        = pickMaxFirst (typeScoresOf filename hints) := by
      simp [detectDocumentType, hne]
    rw [hd]
    set s := typeScoresOf filename hints with hs
    by_cases h1 : s.master = maxScore s
    · simp [pickMaxFirst, h1, typeOrder, List.find?, scoreOf]
    · have hb1 : (s.master == maxScore s) = false := by simp [h1]
      by_cases h2 : s.amendment = maxScore s
      · simp [pickMaxFirst, h1, hb1, h2, typeOrder, List.find?, scoreOf]
      · have hb2 : (s.amendment == maxScore s) = false := by simp [h2]
        by_cases h3 : s.sow = maxScore s
        · simp [pickMaxFirst, h1, hb1, h2, hb2, h3, typeOrder, List.find?, scoreOf]
        · have hb3 : (s.sow == maxScore s) = false := by simp [h3]
          have h4 : s.change_order = maxScore s := by
            unfold maxScore at h1 h2 h3 ⊢
            omega
          simp [pickMaxFirst, h1, hb1, h2, hb2, h3, hb3, h4, typeOrder,
            List.find?, scoreOf]
  · intro hz
    simp [detectDocumentType, hz]

theorem c8_resolution_amended_witness :
    typeOrder.find? (fun t => scoreOf (typeScoresOf "a.pdf" ["sow"]) t ==
        maxScore (typeScoresOf "a.pdf" ["sow"]))
      = some (detectDocumentType "" "a.pdf" ["sow"]).1 :=
  (c8_resolution_amended "" "a.pdf" ["sow"]).1 (by decide)

/-- C9 (counterexample): `DocumentIndexer.index_document` initialises
`doc_type = "other"; level = 4`, so a document whose combined search text
matches no keyword gets level 4, while the fixed level map sends any
other/unknown type to level 1. -/
theorem c9_level_map_counterexample :
    indexerDetect (indexerSearchText "x.pdf" "" "") = ("other", 4) ∧
    specLevelMap "other" = 1 ∧ (4 : Nat) ≠ 1 := by
  refine ⟨by decide, by decide, by decide⟩

/-- C9 (amended): the `level` produced by
`DocumentProcessor._detect_document_type` always equals the fixed map
`{master: 1, amendment: 2, sow: 3, change_order: 4, unknown: 1}` applied to
the detected type; the `level` produced by `DocumentIndexer.index_document`
agrees with the map for the four recognised types, but its no-keyword
fallback is `("other", 4)`, not a level-1 unknown. -/
theorem c9_level_map_amended (text filename : String) (hints : List String)
    (searchText : String)
    (hother : (indexerDetect searchText).1 ≠ "other") :
    (detectDocumentType text filename hints).2
        = specLevelMap (detectDocumentType text filename hints).1 ∧
    (indexerDetect searchText).2 = specLevelMap (indexerDetect searchText).1 := by
  constructor
  · rfl
  · unfold indexerDetect at hother ⊢
    dsimp only at hother ⊢
    split_ifs at hother ⊢ <;> simp_all [specLevelMap]

theorem c9_level_map_amended_witness :
    (indexerDetect (indexerSearchText "SOW_1.pdf" "" "")).2
      = specLevelMap (indexerDetect (indexerSearchText "SOW_1.pdf" "" "")).1 :=
  (c9_level_map_amended "" "" [] (indexerSearchText "SOW_1.pdf" "" "") (by decide)).2

/-! ## Data model (`app/models/document.py`) -/

structure HierarchyContext where
  total_docs_in_set : Nat
  doc_position : Nat
  has_children : Bool
deriving DecidableEq, Repr

structure DocumentMetadata where
  document_id : String
  contract_set_id : String
  name : String
  document_type : String
  level : Nat
  hierarchy_context : Option HierarchyContext
  pdf_metadata : Option (List (String × String))
  parent_document_id : Option String
  effective_date : Option String
deriving DecidableEq, Repr

structure TextChunk where
  text : String
  metadata : DocumentMetadata
  page_number : Nat
  chunk_id : String
  section_id : String
  section_reference : Option String
  level_in_document : Nat
  parent_id : Option String
deriving DecidableEq, Repr

/-! ## Vector store (`DocumentIndexer` / `VectorStorage`)

The Qdrant collection is modelled as a list of points; `upsert` replaces
points whose id already exists and appends the rest.  Vectors are irrelevant
to the stored-payload claims and are not modelled; the embedding service
calls they come from are external. -/

/-- A point id: `DocumentIndexer.index_nodes` uses `str(uuid.uuid4())`
(right injection), `VectorStorage.store_chunks` uses the integer enumeration
position (left injection). -/
abbrev PointId := Nat ⊕ String

structure QPoint (α : Type) where
  id : PointId
  payload : α
deriving DecidableEq, Repr

/-- One step of a Qdrant `upsert`: an incoming point replaces the stored
point with the same id if one exists, otherwise it is appended. -/
def upsertOne (st : List (QPoint α)) (p : QPoint α) : List (QPoint α) :=
  if st.any (fun q => decide (q.id = p.id)) then
    st.map (fun q => if q.id = p.id then p else q)
  else st ++ [p]

/-- Qdrant `upsert` of a batch of points. -/
def upsertPoints (st : List (QPoint α)) : List (QPoint α) → List (QPoint α)
  | [] => st
  | p :: rest => upsertPoints (upsertOne st p) rest

/-- The payload built by `DocumentIndexer.index_nodes` for one chunk; note
the fixed schema marker `version = "1"`. -/
structure IndexPayload where
  text : String
  document_id : String
  contract_set_id : String
  page_number : Nat
  section_reference : Option String
  chunk_id : String
  section_id : String
  level_in_document : Nat
  parent_id : Option String
  document_type : String
  level : Nat
  hierarchy_context : Option HierarchyContext
  name : String
  version : String
deriving DecidableEq, Repr

def indexPayloadOf (c : TextChunk) : IndexPayload :=
  { text := c.text
    document_id := c.metadata.document_id
    contract_set_id := c.metadata.contract_set_id
    page_number := c.page_number
    section_reference := c.section_reference
    chunk_id := c.chunk_id
    section_id := c.section_id
    level_in_document := c.level_in_document
    parent_id := c.parent_id
    document_type := c.metadata.document_type
    level := c.metadata.level
    hierarchy_context := c.metadata.hierarchy_context
    name := c.metadata.name
    version := "1" }

/-- The points built by `DocumentIndexer.index_nodes`: one per chunk, keyed
by a freshly generated uuid string (supplied here as the list `uuids`,
mirroring the `uuid.uuid4()` calls). -/
def buildIndexPoints (chunks : List TextChunk) (uuids : List String) :
    List (QPoint IndexPayload) :=
  (chunks.zip uuids).map (fun cu => ⟨Sum.inr cu.2, indexPayloadOf cu.1⟩)

def indexNodes (st : List (QPoint IndexPayload)) (chunks : List TextChunk)
    (uuids : List String) : List (QPoint IndexPayload) :=
  upsertPoints st (buildIndexPoints chunks uuids)

def matchesPair (docId setId : String) (p : QPoint IndexPayload) : Bool :=
  p.payload.document_id == docId && p.payload.contract_set_id == setId

/-- The operation `DocumentIndexer.delete_document`: delete every point whose payload
matches both `document_id` and `contract_set_id`. -/
def deleteDocument (st : List (QPoint IndexPayload)) (docId setId : String) :
    List (QPoint IndexPayload) :=
  st.filter (fun p => !(matchesPair docId setId p))

/-- The store-level effect of `DocumentIndexer.index_document`: the
pre-delete runs first and, if it raises (`deleteOk = false`), the exception
is logged and swallowed (`except ... logger.warning`) and the insert
proceeds on the unchanged store. -/
def indexDocumentStore (st : List (QPoint IndexPayload)) (docId setId : String)
    (deleteOk : Bool) (chunks : List TextChunk) (uuids : List String) :
    List (QPoint IndexPayload) :=
  let st1 := if deleteOk then deleteDocument st docId setId else st
  indexNodes st1 chunks uuids

/-- The payload built by `VectorStorage.store_chunks` (no `version` marker;
the full metadata object is nested under a `metadata` key instead of being
flattened). -/
structure StorePayload where
  text : String
  document_id : String
  contract_set_id : String
  page_number : Nat
  chunk_id : String
  parent_id : Option String
  level_in_document : Nat
  section_id : String
  section_reference : Option String
  metadata : DocumentMetadata
deriving DecidableEq, Repr

def storePayloadOf (c : TextChunk) : StorePayload :=
  { text := c.text
    document_id := c.metadata.document_id
    contract_set_id := c.metadata.contract_set_id
    page_number := c.page_number
    chunk_id := c.chunk_id
    parent_id := c.parent_id
    level_in_document := c.level_in_document
    section_id := c.section_id
    section_reference := c.section_reference
    metadata := c.metadata }

/-- The points built by `VectorStorage.store_chunks`: `id=idx`, the
enumeration position. -/
def storeChunksPoints (chunks : List TextChunk) : List (QPoint StorePayload) :=
  ((List.range chunks.length).zip chunks).map
    (fun ic => ⟨Sum.inl ic.1, storePayloadOf ic.2⟩)

def storeChunks (st : List (QPoint StorePayload)) (chunks : List TextChunk) :
    List (QPoint StorePayload) :=
  upsertPoints st (storeChunksPoints chunks)

theorem upsertOne_disjoint {α : Type} {st : List (QPoint α)} {p : QPoint α}
    (h : ∀ q ∈ st, p.id ≠ q.id) : upsertOne st p = st ++ [p] := by
  unfold upsertOne
  rw [if_neg]
  intro hcontra
  rcases List.any_eq_true.mp hcontra with ⟨q, hq, hbeq⟩
  exact h q hq (of_decide_eq_true hbeq).symm

theorem upsertPoints_disjoint {α : Type} :
    ∀ (new st : List (QPoint α)),
      ((new.map QPoint.id).Nodup) →
      (∀ p ∈ new, ∀ q ∈ st, p.id ≠ q.id) →
      upsertPoints st new = st ++ new := by
  intro new
  induction new with
  | nil => intro st _ _; simp [upsertPoints]
  | cons p rest ih =>
    intro st hnodup hdisj
    have hmap : (List.map QPoint.id (p :: rest)).Nodup := hnodup
    rw [List.map_cons, List.nodup_cons] at hmap
    obtain ⟨hnotin, hnodup'⟩ := hmap
    have hone : upsertOne st p = st ++ [p] :=
      upsertOne_disjoint (fun q hq => hdisj p (List.mem_cons_self p rest) q hq)
    have step : upsertPoints st (p :: rest) = upsertPoints (st ++ [p]) rest := by
      rw [upsertPoints, hone]
    rw [step, ih (st ++ [p]) hnodup' ?_]
    · simp
    · intro r hr q hq
      rcases List.mem_append.mp hq with hq1 | hq2
      · exact hdisj r (List.mem_cons_of_mem p hr) q hq1
      · have hqp : q = p := by simpa using hq2
        subst hqp
        intro hcontra
        exact hnotin (hcontra ▸ List.mem_map_of_mem QPoint.id hr)

theorem deleteDocument_removes (st : List (QPoint IndexPayload)) (docId setId : String) :
    (deleteDocument st docId setId).filter (matchesPair docId setId) = [] := by
  rw [List.filter_eq_nil_iff]
  intro p hp
  have := (List.mem_filter.mp hp).2
  simp_all

/-- C6: re-indexing a `(document_id, contract_set_id)` pair deletes the old
points before inserting the new batch; a failed pre-delete (`ok1` arbitrary,
covering a swallowed first failure) is non-fatal; re-indexing the pair twice
leaves exactly the second batch's points stored under that pair. -/
theorem c6_reindex_replace (st : List (QPoint IndexPayload)) (docId setId : String)
    (ok1 : Bool) (chunks1 : List TextChunk) (uuids1 : List String)
    (chunks2 : List TextChunk) (uuids2 : List String)
    (hmatch : ∀ p ∈ buildIndexPoints chunks2 uuids2, matchesPair docId setId p = true)
    (hnodup : ((buildIndexPoints chunks2 uuids2).map QPoint.id).Nodup)
    (hfresh : ∀ p ∈ buildIndexPoints chunks2 uuids2,
      ∀ q ∈ indexDocumentStore st docId setId ok1 chunks1 uuids1, p.id ≠ q.id) :
    (indexDocumentStore (indexDocumentStore st docId setId ok1 chunks1 uuids1)
        docId setId true chunks2 uuids2).filter (matchesPair docId setId)
      = buildIndexPoints chunks2 uuids2 := by
  set mid := indexDocumentStore st docId setId ok1 chunks1 uuids1 with hmid
  have hfresh2 : ∀ p ∈ buildIndexPoints chunks2 uuids2,
      ∀ q ∈ deleteDocument mid docId setId, p.id ≠ q.id := by
    intro p hp q hq
    exact hfresh p hp q (List.mem_filter.mp hq).1
  have hup : indexDocumentStore mid docId setId true chunks2 uuids2
      = deleteDocument mid docId setId ++ buildIndexPoints chunks2 uuids2 := by
    unfold indexDocumentStore indexNodes
    rw [if_pos rfl]
    exact upsertPoints_disjoint _ _ hnodup hfresh2
  rw [hup, List.filter_append, deleteDocument_removes, List.nil_append,
    List.filter_eq_self.mpr hmatch]

/-- C7 (amended): `DocumentIndexer.index_nodes` upserts exactly one point
per chunk, keyed by a fresh uuid, with the flattened payload carrying the
fixed schema marker `version = "1"`, and (ids being fresh) never overwrites
any pre-existing point; `VectorStorage.store_chunks`, in contrast, keys its
points by the 0-based enumeration position, identifiers that are reused on
every call. -/
theorem c7_point_identity_amended (st : List (QPoint IndexPayload))
    (chunks : List TextChunk) (uuids : List String)
    (hlen : uuids.length = chunks.length)
    (hnodup : uuids.Nodup)
    (hfresh : ∀ u ∈ uuids, ∀ q ∈ st, (Sum.inr u : PointId) ≠ q.id) :
    indexNodes st chunks uuids = st ++ buildIndexPoints chunks uuids ∧
    (buildIndexPoints chunks uuids).length = chunks.length ∧
    (∀ p ∈ buildIndexPoints chunks uuids,
      p.payload.version = "1" ∧
      ∃ c ∈ chunks, ∃ u ∈ uuids, p = ⟨Sum.inr u, indexPayloadOf c⟩) ∧
    (∀ schunks : List TextChunk,
      (storeChunksPoints schunks).map QPoint.id
        = (List.range schunks.length).map Sum.inl) := by
  have hsnd : (chunks.zip uuids).map Prod.snd = uuids :=
    List.map_snd_zip _ _ (le_of_eq hlen)
  have hids : (buildIndexPoints chunks uuids).map QPoint.id
      = uuids.map Sum.inr := by
    unfold buildIndexPoints
    rw [List.map_map]
    rw [show (QPoint.id ∘ fun cu : TextChunk × String =>
        (⟨Sum.inr cu.2, indexPayloadOf cu.1⟩ : QPoint IndexPayload))
        = (Sum.inr ∘ Prod.snd) from rfl]
    rw [← List.map_map, hsnd]
  refine ⟨?_, ?_, ?_, ?_⟩
  · apply upsertPoints_disjoint
    · rw [hids]
      exact hnodup.map (fun a b h => by simpa using h)
    · intro p hp q hq
      rcases List.mem_map.mp hp with ⟨cu, hcu, rfl⟩
      exact hfresh cu.2 (List.of_mem_zip hcu).2 q hq
  · unfold buildIndexPoints
    rw [List.length_map, List.length_zip]
    omega
  · intro p hp
    rcases List.mem_map.mp hp with ⟨cu, hcu, rfl⟩
    have hmem := List.of_mem_zip hcu
    exact ⟨rfl, cu.1, hmem.1, cu.2, hmem.2, rfl⟩
  · intro schunks
    calc (storeChunksPoints schunks).map QPoint.id
        = (((List.range schunks.length).zip schunks).map Prod.fst).map Sum.inl := by
          unfold storeChunksPoints
          rw [List.map_map, List.map_map]
          rfl
      _ = (List.range schunks.length).map Sum.inl := by
          rw [List.map_fst_zip _ _ (by simp)]

/-- Concrete sample data used by closed instances below. -/
def sampleMeta (docId setId : String) : DocumentMetadata :=
  ⟨docId, setId, "doc", "master", 1, none, none, none, none⟩

def sampleChunk (docId setId text cid : String) : TextChunk :=
  ⟨text, sampleMeta docId setId, 1, cid, "sec1", none, 1, none⟩

theorem c6_reindex_replace_witness :
    (indexDocumentStore
        (indexDocumentStore [] "d" "s" true [sampleChunk "d" "s" "t1" "c1"] ["u1"])
        "d" "s" true [sampleChunk "d" "s" "t2" "c2"] ["u2"]).filter (matchesPair "d" "s")
      = buildIndexPoints [sampleChunk "d" "s" "t2" "c2"] ["u2"] :=
  c6_reindex_replace [] "d" "s" true [sampleChunk "d" "s" "t1" "c1"] ["u1"]
    [sampleChunk "d" "s" "t2" "c2"] ["u2"] (by decide) (by decide) (by decide)

theorem c7_point_identity_amended_witness :
    indexNodes [] [sampleChunk "A" "s" "tA" "cA"] ["uA"]
      = [] ++ buildIndexPoints [sampleChunk "A" "s" "tA" "cA"] ["uA"] :=
  (c7_point_identity_amended [] [sampleChunk "A" "s" "tA" "cA"] ["uA"]
    (by decide) (by decide) (by decide)).1

/-- C7 (counterexample): `VectorStorage.store_chunks` keys points by the
enumeration index (`id=idx`), identifiers that restart at 0 on every call,
so storing document B's single chunk after document A's single chunk reuses
point id `0` and silently replaces document A's point. -/
theorem c7_point_identity_counterexample :
    (storeChunks (storeChunks [] [sampleChunk "A" "s" "tA" "cA"])
        [sampleChunk "B" "s" "tB" "cB"]).map (fun p => p.payload.document_id)
      = ["B"] := by
  decide

/-! ## Singleton construction: `DocumentProcessor.__new__` / `__init__` -/

structure ProcInstance where
  chunk_size : Nat
  chunk_overlap : Nat
deriving DecidableEq, Repr

/-- One Python construction `DocumentProcessor(cs, ov)`: `__new__` returns
the cached class-level instance, creating it only if absent (its arguments
are ignored); `__init__` then runs on the returned instance but is guarded
by `hasattr(self, 'initialized')`, so only the first construction stores
`chunk_size` and `chunk_overlap`.  Returns (new class state, returned
instance). -/
def constructProcessor : Option ProcInstance → Nat → Nat →
    Option ProcInstance × ProcInstance
  | none, cs, ov => (some ⟨cs, ov⟩, ⟨cs, ov⟩)
  | some inst, _, _ => (some inst, inst)

/-- A sequence of constructions against the shared class-level state,
returning the instances handed back, in order. -/
def constructSeq : Option ProcInstance → List (Nat × Nat) → List ProcInstance
  | _, [] => []
  | st, (cs, ov) :: rest =>
    (constructProcessor st cs ov).2 :: constructSeq (constructProcessor st cs ov).1 rest

theorem constructSeq_some (inst : ProcInstance) :
    ∀ (args : List (Nat × Nat)),
      constructSeq (some inst) args = List.replicate args.length inst := by
  intro args
  induction args with
  | nil => rfl
  | cons a rest ih =>
    cases a
    simp [constructSeq, constructProcessor, ih, List.replicate]

/-- C10: the processor is a process-wide singleton — constructing first with
`(cs₀, ov₀)` and then any number of further times with arbitrary arguments
always returns the single instance created first, which keeps the
first-construction `chunk_size` and `chunk_overlap` (later arguments are
ignored). -/
theorem c10_singleton_processor (cs0 ov0 : Nat) (later : List (Nat × Nat)) :
    constructSeq none ((cs0, ov0) :: later)
      = List.replicate (later.length + 1) ⟨cs0, ov0⟩ := by
  simp [constructSeq, constructProcessor, constructSeq_some, List.replicate]

/-! ## Query engine: `QueryEngine.query`

The vector store's stored points, the search hits, the reranker and the
language model are external; hits are given as payload records, the reranker
and the model as oracle function parameters.  The result carries the trace
of external-service calls made (`scroll`, `embed`, `search`, `rerank`,
`llm`), in order. -/

structure Hit where
  text : String
  document_id : String
  page_number : Int
  section_reference : Option String
  name : Option String
  document_type : Option String
  level : Option Int
  parent_document_id : Option String
deriving DecidableEq, Repr, Inhabited

structure RerankResult where
  index : Nat
  relevance_score : ℚ
deriving DecidableEq, Repr

structure ChunkInfo where
  document_id : String
  text : String
  page_number : Int
  section_reference : Option String
  document_name : Option String
deriving DecidableEq, Repr

structure CitationOut where
  document_id : String
  page_number : Int
  section_reference : Option String
  text_snippet : String
  document_name : Option String
deriving DecidableEq, Repr

structure QueryOut where
  answer : String
  citations : List CitationOut
  confidence : ℚ
deriving DecidableEq, Repr

inductive SvcCall
  | scroll
  | embed
  | search
  | rerank
  | llm
deriving DecidableEq, Repr

def hierarchyKeywords : List String := ["type", "level", "document type", "hierarchy"]

def hasHierarchyKeyword (q : String) : Bool :=
  hierarchyKeywords.any (fun k => containsSub (lowerCh q.toList) k.toList)

/-- One grouped entry of the metadata shortcut (`'name'`/`'type'`/`'level'`/
`'parent_id'` with their `payload.get` defaults; `dtype` stands for the
`'type'` key). -/
structure DocMetaEntry where
  name : String
  dtype : String
  level : String
  parent_id : String
deriving DecidableEq, Repr

def metaEntryOf (h : Hit) : DocMetaEntry :=
  { name := h.name.getD "Unknown"
    dtype := h.document_type.getD "Unknown"
    level := (h.level.map toString).getD "Unknown"
    parent_id := h.parent_document_id.getD "None" }

/-- Group scrolled points by document id, first occurrence winning (Python
dict insertion order). -/
def groupDocMeta : List Hit → List (String × DocMetaEntry) → List (String × DocMetaEntry)
  | [], acc => acc
  | h :: hs, acc =>
    if acc.any (fun p => decide (p.1 = h.document_id)) then groupDocMeta hs acc
    else groupDocMeta hs (acc ++ [(h.document_id, metaEntryOf h)])

/-- The metadata-shortcut answer text, ending with `.strip()`. -/
def metadataAnswer (docsInfo : List Hit) : String :=
  let entries := groupDocMeta docsInfo []
  let body := String.join (entries.map (fun e =>
    "Document: " ++ e.2.name ++ "\nType: " ++ e.2.dtype ++ "\nLevel: " ++ e.2.level
      ++ "\nParent Document: " ++ e.2.parent_id ++ "\n\n"))
  String.mk (stripCh ("Here are the document details:\n\n" ++ body).toList)

/-- The scroll over the collection restricted to the allowed ids
(`limit=100`). -/
def scrollDocs (store : List Hit) (docIds : List String) : List Hit :=
  (store.filter (fun h => decide (h.document_id ∈ docIds))).take 100

/-- The relevance floor `0.01` of the two filtering passes. -/
def relevanceFloor : ℚ := mkRat 1 100

/-- The lookup `search_result[result.index].payload.get("document_id", "")` (indices
produced by the reranker are positions into the search results; theorems
assume they are in range, as Python would otherwise raise). -/
def docOfResult (hits : List Hit) (r : RerankResult) : String :=
  ((hits[r.index]?).map Hit.document_id).getD ""

def hasKey (counts : List (String × Nat)) (d : String) : Bool :=
  counts.any (fun p => decide (p.1 = d))

def countOf (counts : List (String × Nat)) (d : String) : Nat :=
  ((counts.find? (fun p => decide (p.1 = d))).map Prod.snd).getD 0

/-- The update `doc_citation_counts[doc_id] = doc_citation_counts.get(doc_id, 0) + 1`. -/
def bumpCount (counts : List (String × Nat)) (d : String) : List (String × Nat) :=
  if hasKey counts d then
    counts.map (fun p => if p.1 = d then (p.1, p.2 + 1) else p)
  else counts ++ [(d, 1)]

/-- Selection state: `relevant_results` and `doc_citation_counts`. -/
structure SelState where
  relevant : List RerankResult
  counts : List (String × Nat)
deriving DecidableEq, Repr

/-- First pass: walk the reranked list in order, accept the first
qualifying result of each not-yet-represented document, and break as soon
as every allowed document is represented. -/
def pass1 (hits : List Hit) (docIds : List String) :
    List RerankResult → SelState → SelState
  | [], st => st
  | r :: rs, st =>
    let d := docOfResult hits r
    if relevanceFloor < r.relevance_score ∧ d ∈ docIds ∧ hasKey st.counts d = false then
      let st2 : SelState := ⟨st.relevant ++ [r], st.counts ++ [(d, 1)]⟩
      if st2.counts.length = docIds.length then st2 else pass1 hits docIds rs st2
    else pass1 hits docIds rs st

/-- Second pass: walk again, admitting further qualifying results, at most
2 per document and stopping at 15 overall, skipping results already
selected. -/
def pass2 (hits : List Hit) (docIds : List String) :
    List RerankResult → SelState → SelState
  | [], st => st
  | r :: rs, st =>
    let d := docOfResult hits r
    if relevanceFloor < r.relevance_score ∧ d ∈ docIds ∧ countOf st.counts d < 2 ∧
        st.relevant.length < 15 then
      if r ∈ st.relevant then pass2 hits docIds rs st
      else pass2 hits docIds rs ⟨st.relevant ++ [r], bumpCount st.counts d⟩
    else pass2 hits docIds rs st

/-- The two-pass fair-coverage selection of `QueryEngine.query`. -/
def selectRelevant (hits : List Hit) (docIds : List String)
    (reranked : List RerankResult) : SelState :=
  pass2 hits docIds reranked (pass1 hits docIds reranked ⟨[], []⟩)

/-- The inner part of the regex `\[\[(.*?)\]\]`: consume characters up to
the first `]]` (non-greedy); `.` does not match a newline. -/
def takeUntilRB : List Char → Option (List Char × List Char)
  | [] => none
  | ']' :: ']' :: rest => some ([], rest)
  | '\n' :: _ => none
  | c :: rest =>
    match takeUntilRB rest with
    | some (q, r) => some (c :: q, r)
    | none => none

/-- The scan `re.finditer(r'\[\[(.*?)\]\]', answer)`: look for `[[`, take the
non-greedy body up to the first `]]`; when no closing `]]` is reachable,
resume scanning one character later, as the regex engine does.  Written
with explicit fuel (one unit per scanned position suffices; no theorem
depends on the fuel bound). -/
def scanQuotes : Nat → List Char → List (List Char)
  | 0, _ => []
  | _ + 1, [] => []
  | fuel + 1, '[' :: '[' :: rest =>
    match takeUntilRB rest with
    | some (q, r) => q :: scanQuotes fuel r
    | none => scanQuotes fuel ('[' :: rest)
  | fuel + 1, _ :: rest => scanQuotes fuel rest

def extractQuotes (l : List Char) : List (List Char) :=
  scanQuotes (l.length + 1) l

/-- The per-source record kept in `chunk_map` (text is `.strip()`ped). -/
def chunkInfoOf (h : Hit) : ChunkInfo :=
  { document_id := h.document_id
    text := String.mk (stripCh h.text.toList)
    page_number := h.page_number
    section_reference := h.section_reference
    document_name := h.name }

def mkCitation (c : ChunkInfo) (q : List Char) : CitationOut :=
  { document_id := c.document_id
    page_number := c.page_number
    section_reference := c.section_reference
    text_snippet := String.mk q
    document_name := c.document_name }

/-- The grounding loop over the extracted normalized quotes: skip
duplicates of already-verified quotes, find the first source whose
normalized text contains the quote, emit a citation built from that source,
and silently drop quotes that verify nowhere. -/
def citeLoop (chunks : List ChunkInfo) :
    List (List Char) → List (List Char) → List CitationOut
  | [], _ => []
  | q :: qs, seen =>
    if q ∈ seen then citeLoop chunks qs seen
    else
      match chunks.find? (fun c => containsSub (normChars c.text.toList) q) with
      | some c => mkCitation c q :: citeLoop chunks qs (seen ++ [q])
      | none => citeLoop chunks qs seen

/-- The synthesis prompt spliced from the query, per-source labels and
excerpt texts.  The static instruction blocks (citation rules, analysis
requirements, response structure) are abbreviated: the language model is an
arbitrary oracle in every theorem, so only the data dependencies matter. -/
def buildPrompt (query : String) (docIds : List String)
    (chunkMap : List ChunkInfo) : String :=
  "Answer the following question using information from "
    ++ toString docIds.length ++ " selected documents: " ++ query
    ++ String.join (chunkMap.map (fun c =>
      "\nDocument: " ++ c.document_name.getD "Unnamed" ++ "\n" ++ c.text ++ "\n---"))

def noDocsAnswer : String := "No documents selected for search."

def noResultsAnswer : String :=
  "No relevant information found in the selected documents."

def noCitationsAnswer : String :=
  "I couldn\x27t find any highly relevant citations in the selected documents to support an answer. Could you please rephrase your question or specify which aspects you\x27d like me to focus on?"

/-- The `chunk_map` of the synthesis step: one record per selected result,
built from the hit the reranker's index points back to. -/
def chunkMapOf (searchHits : List Hit) (sel : SelState) : List ChunkInfo :=
  sel.relevant.map (fun r => chunkInfoOf ((searchHits[r.index]?).getD default))

/-- The synthesis + grounding tail of `QueryEngine.query`: build the prompt,
call the model, extract the bracket-quoted spans, normalize them, verify
them against the selected excerpts, and set the confidence to 1.0 when at
least one citation verified and 0.5 otherwise. -/
def synthBranch (query : String) (docIds : List String) (searchHits : List Hit)
    (sel : SelState) (llm : String → String) : QueryOut :=
  let chunkMap := chunkMapOf searchHits sel
  let answer := llm (buildPrompt query docIds chunkMap)
  let quotes := (extractQuotes answer.toList).map (fun q => normChars (stripCh q))
  let cits := citeLoop chunkMap quotes []
  ⟨answer, cits, if cits.isEmpty then mkRat 1 2 else 1⟩

/-- The engine `QueryEngine.query`.  `store` models the collection contents seen by the
metadata `scroll`; `searchHits` the vector-search response for the embedded
query (restricted server-side to the allowed ids, `limit=100`); `rerank` the
reranking service applied to the extracted context texts (`top_n=30`
server-side); `llm` the chat-completion service applied to the prompt.
Returns the response record and the ordered trace of external calls. -/
def queryModel (query : String) (docIds : List String) (store : List Hit)
    (searchHits : List Hit) (rerank : List String → List RerankResult)
    (llm : String → String) : QueryOut × List SvcCall :=
  if docIds.isEmpty then
    (⟨noDocsAnswer, [], 0⟩, [])
  else if hasHierarchyKeyword query && !(scrollDocs store docIds).isEmpty then
    (⟨metadataAnswer (scrollDocs store docIds), [], 1⟩, [.scroll])
  else
    let pre : List SvcCall := if hasHierarchyKeyword query then [.scroll] else []
    if searchHits.isEmpty then
      (⟨noResultsAnswer, [], 0⟩, pre ++ [.embed, .search])
    else
      let sel := selectRelevant searchHits docIds (rerank (searchHits.map Hit.text))
      if sel.relevant.isEmpty then
        (⟨noCitationsAnswer, [], 0⟩, pre ++ [.embed, .search, .rerank])
      else
        (synthBranch query docIds searchHits sel llm,
          pre ++ [.embed, .search, .rerank, .llm])

/-! ### Fair-coverage selection: invariants (C3) -/

/-- A reranked result qualifies when its relevance is above the floor and
its document is allowed. -/
def qualifies (hits : List Hit) (docIds : List String) (r : RerankResult) : Prop :=
  relevanceFloor < r.relevance_score ∧ docOfResult hits r ∈ docIds

theorem hasKey_iff_mem_keys (counts : List (String × Nat)) (d : String) :
    hasKey counts d = true ↔ d ∈ counts.map Prod.fst := by
  unfold hasKey
  rw [List.any_eq_true]
  constructor
  · rintro ⟨p, hp, hdec⟩
    exact (of_decide_eq_true hdec) ▸ List.mem_map_of_mem Prod.fst hp
  · intro hd
    rcases List.mem_map.mp hd with ⟨p, hp, rfl⟩
    exact ⟨p, hp, by simp⟩

theorem hasKey_false_iff (counts : List (String × Nat)) (d : String) :
    hasKey counts d = false ↔ ∀ p ∈ counts, p.1 ≠ d := by
  rw [← Bool.not_eq_true, hasKey_iff_mem_keys]
  constructor
  · intro h p hp hc
    exact h (hc ▸ List.mem_map_of_mem Prod.fst hp)
  · intro h hc
    rcases List.mem_map.mp hc with ⟨p, hp, rfl⟩
    exact h p hp rfl

theorem countOf_cons_of_ne {p : String × Nat} {rest : List (String × Nat)}
    {d : String} (hp : p.1 ≠ d) : countOf (p :: rest) d = countOf rest d := by
  simp [countOf, List.find?, hp]

theorem countOf_cons_of_eq {p : String × Nat} {rest : List (String × Nat)}
    {d : String} (hp : p.1 = d) : countOf (p :: rest) d = p.2 := by
  simp [countOf, List.find?, hp]

theorem countOf_of_not_hasKey {counts : List (String × Nat)} {d : String}
    (h : hasKey counts d = false) : countOf counts d = 0 := by
  have : counts.find? (fun p => decide (p.1 = d)) = none := by
    rw [List.find?_eq_none]
    intro p hp
    simpa using (hasKey_false_iff counts d).mp h p hp
  simp [countOf, this]

theorem countOf_append_single (counts : List (String × Nat)) (d' : String)
    (n : Nat) (d : String) :
    countOf (counts ++ [(d', n)]) d
      = if hasKey counts d then countOf counts d else if d' = d then n else 0 := by
  induction counts with
  | nil =>
    by_cases h : d' = d <;> simp [countOf, hasKey, List.find?, h]
  | cons p rest ih =>
    by_cases hp : p.1 = d
    · simp [countOf, hasKey, List.find?, hp]
    · have e1 : countOf ((p :: rest) ++ [(d', n)]) d = countOf (rest ++ [(d', n)]) d := by
        simpa using @countOf_cons_of_ne p (rest ++ [(d', n)]) d hp
      have e3 : hasKey (p :: rest) d = hasKey rest d := by
        simp [hasKey, hp]
      rw [e1, countOf_cons_of_ne hp, e3, ih]

theorem countOf_map_inc (counts : List (String × Nat)) (d' d : String) :
    countOf (counts.map (fun p => if p.1 = d' then (p.1, p.2 + 1) else p)) d
      = if d' = d ∧ hasKey counts d = true then countOf counts d + 1
        else countOf counts d := by
  induction counts with
  | nil => simp [countOf, hasKey]
  | cons p rest ih =>
    have hfst : ∀ q : String × Nat,
        ((if q.1 = d' then (q.1, q.2 + 1) else q) : String × Nat).1 = q.1 := by
      intro q
      by_cases h : q.1 = d' <;> simp [h]
    by_cases hp : p.1 = d
    · rw [List.map_cons, countOf_cons_of_eq ((hfst p).trans hp), countOf_cons_of_eq hp]
      have hk : hasKey (p :: rest) d = true := by
        unfold hasKey
        exact List.any_eq_true.mpr ⟨p, List.mem_cons_self p rest, by simp [hp]⟩
      rw [hk]
      by_cases h2 : d' = d
      · have hpd : p.1 = d' := by rw [hp, h2]
        simp [hpd, h2]
      · have hpd : p.1 ≠ d' := by rw [hp]; exact fun hc => h2 hc.symm
        simp [hpd, h2]
    · rw [List.map_cons, countOf_cons_of_ne (fun hc => hp ((hfst p).symm.trans hc)),
        countOf_cons_of_ne hp, ih]
      have e3 : hasKey (p :: rest) d = hasKey rest d := by
        simp [hasKey, hp]
      rw [e3]

theorem countOf_bumpCount (counts : List (String × Nat)) (d' d : String) :
    countOf (bumpCount counts d') d
      = if d' = d then countOf counts d + 1 else countOf counts d := by
  unfold bumpCount
  by_cases hk : hasKey counts d'
  · rw [if_pos hk, countOf_map_inc]
    by_cases h2 : d' = d
    · subst h2
      rw [if_pos ⟨rfl, hk⟩, if_pos rfl]
    · rw [if_neg (fun hc => h2 hc.1), if_neg h2]
  · have hkf : hasKey counts d' = false := Bool.eq_false_iff.mpr hk
    rw [if_neg hk, countOf_append_single]
    by_cases h2 : d' = d
    · subst h2
      have hz : countOf counts d' = 0 := countOf_of_not_hasKey hkf
      rw [if_neg (by simp [hkf]), if_pos rfl, hz]
      simp
    · by_cases hkd : hasKey counts d
      · rw [if_pos hkd, if_neg h2]
      · have hzd : countOf counts d = 0 :=
          countOf_of_not_hasKey (Bool.eq_false_iff.mpr hkd)
        rw [if_neg (by simp [hkd]), if_neg h2, hzd]
        simp [h2]

theorem countOf_eq_of_mem {counts : List (String × Nat)} {p : String × Nat}
    (hnodup : (counts.map Prod.fst).Nodup) (hp : p ∈ counts) :
    countOf counts p.1 = p.2 := by
  induction counts with
  | nil => simp at hp
  | cons q rest ih =>
    rw [List.map_cons, List.nodup_cons] at hnodup
    rcases List.mem_cons.mp hp with rfl | hmem
    · simp [countOf, List.find?]
    · by_cases hq : q.1 = p.1
      · exact absurd (hq ▸ List.mem_map_of_mem Prod.fst hmem) hnodup.1
      · have : countOf (q :: rest) p.1 = countOf rest p.1 := by
          simp [countOf, List.find?, hq]
        rw [this, ih hnodup.2 hmem]

theorem countOf_le_of_valbound {counts : List (String × Nat)} {k : Nat}
    (h : ∀ p ∈ counts, p.2 ≤ k) (d : String) : countOf counts d ≤ k := by
  unfold countOf
  cases hf : counts.find? (fun p => decide (p.1 = d)) with
  | none => simp
  | some p =>
    have := List.mem_of_find?_eq_some hf
    simpa using h p this

/-- Invariant maintained by the first pass: all selected results qualify,
count keys are distinct allowed ids, the counts are an exact census of the
selection, each represented document counts exactly 1, and selection and
counts have equal length. -/
structure Inv1 (hits : List Hit) (docIds : List String) (st : SelState) : Prop where
  qual : ∀ r ∈ st.relevant, qualifies hits docIds r
  keysNodup : (st.counts.map Prod.fst).Nodup
  keysSub : ∀ p ∈ st.counts, p.1 ∈ docIds
  census : ∀ d, countOf st.counts d
      = (st.relevant.filter (fun r => decide (docOfResult hits r = d))).length
  vals1 : ∀ p ∈ st.counts, p.2 = 1
  lenEq : st.relevant.length = st.counts.length

/-- Invariant maintained by the second pass: as `Inv1`, but each document
may count up to 2. -/
structure Inv2 (hits : List Hit) (docIds : List String) (st : SelState) : Prop where
  qual : ∀ r ∈ st.relevant, qualifies hits docIds r
  keysNodup : (st.counts.map Prod.fst).Nodup
  keysSub : ∀ p ∈ st.counts, p.1 ∈ docIds
  census : ∀ d, countOf st.counts d
      = (st.relevant.filter (fun r => decide (docOfResult hits r = d))).length
  vals2 : ∀ p ∈ st.counts, p.2 ≤ 2

theorem inv1_step {hits : List Hit} {docIds : List String} {st : SelState}
    (inv : Inv1 hits docIds st) {r : RerankResult}
    (hq : relevanceFloor < r.relevance_score)
    (hd : docOfResult hits r ∈ docIds)
    (hnk : hasKey st.counts (docOfResult hits r) = false) :
    Inv1 hits docIds ⟨st.relevant ++ [r], st.counts ++ [(docOfResult hits r, 1)]⟩ := by
  constructor
  · intro x hx
    rcases List.mem_append.mp hx with h1 | h2
    · exact inv.qual x h1
    · have hxr : x = r := by simpa using h2
      subst hxr
      exact ⟨hq, hd⟩
  · rw [List.map_append, List.nodup_append]
    refine ⟨inv.keysNodup, by simp, ?_⟩
    intro a ha hb
    have hab : a = docOfResult hits r := by simpa using hb
    subst hab
    rw [← hasKey_iff_mem_keys] at ha
    rw [ha] at hnk
    simp at hnk
  · intro p hp
    rcases List.mem_append.mp hp with h1 | h2
    · exact inv.keysSub p h1
    · have : p = (docOfResult hits r, 1) := by simpa using h2
      subst this
      exact hd
  · intro e
    rw [countOf_append_single, List.filter_append]
    by_cases he : docOfResult hits r = e
    · have hnk' : hasKey st.counts e = false := he ▸ hnk
      rw [if_neg (by simp [hnk']), if_pos he]
      have hz : countOf st.counts e = 0 := countOf_of_not_hasKey hnk'
      have hlen0 : (st.relevant.filter
          (fun x => decide (docOfResult hits x = e))).length = 0 :=
        (inv.census e).symm.trans hz
      have hone : (([r] : List RerankResult).filter
          (fun x => decide (docOfResult hits x = e))).length = 1 := by
        simp [he]
      rw [List.length_append, hlen0, hone]
    · rw [List.length_append]
      have hzero : (([r] : List RerankResult).filter
          (fun x => decide (docOfResult hits x = e))).length = 0 := by
        simp [he]
      rw [hzero]
      by_cases hk : hasKey st.counts e
      · rw [if_pos hk, inv.census e]
        omega
      · rw [if_neg (by simp [hk]), if_neg he,
          ← inv.census e, countOf_of_not_hasKey (Bool.eq_false_iff.mpr hk)]
  · intro p hp
    rcases List.mem_append.mp hp with h1 | h2
    · exact inv.vals1 p h1
    · have : p = (docOfResult hits r, 1) := by simpa using h2
      subst this
      rfl
  · simp [inv.lenEq]

theorem pass1_inv (hits : List Hit) (docIds : List String) :
    ∀ (rs : List RerankResult) (st : SelState), Inv1 hits docIds st →
      Inv1 hits docIds (pass1 hits docIds rs st) := by
  intro rs
  induction rs with
  | nil => intro st h; exact h
  | cons r rs ih =>
    intro st hinv
    rw [pass1]
    dsimp only
    split_ifs with hcond hbreak
    · exact inv1_step hinv hcond.1 hcond.2.1 hcond.2.2
    · exact ih _ (inv1_step hinv hcond.1 hcond.2.1 hcond.2.2)
    · exact ih _ hinv

theorem keys_full {docIds : List String} {counts : List (String × Nat)}
    (hnd : docIds.Nodup)
    (hnodup : (counts.map Prod.fst).Nodup)
    (hsub : ∀ p ∈ counts, p.1 ∈ docIds)
    (hlen : counts.length = docIds.length) :
    ∀ d ∈ docIds, hasKey counts d = true := by
  intro d hd
  rw [hasKey_iff_mem_keys]
  have hksub : (counts.map Prod.fst).toFinset ⊆ docIds.toFinset := by
    intro a ha
    rw [List.mem_toFinset] at ha ⊢
    rcases List.mem_map.mp ha with ⟨p, hp, rfl⟩
    exact hsub p hp
  have hcard1 : (counts.map Prod.fst).toFinset.card = docIds.length := by
    rw [List.toFinset_card_of_nodup hnodup, List.length_map, hlen]
  have hcard2 : docIds.toFinset.card = docIds.length :=
    List.toFinset_card_of_nodup hnd
  have heq := Finset.eq_of_subset_of_card_le hksub (by rw [hcard1, hcard2])
  have : d ∈ docIds.toFinset := List.mem_toFinset.mpr hd
  rw [← heq] at this
  exact List.mem_toFinset.mp this

theorem pass1_covers (hits : List Hit) {docIds : List String} (hnd : docIds.Nodup) :
    ∀ (rs : List RerankResult) (st : SelState), Inv1 hits docIds st →
      ∀ d ∈ docIds,
        ((∃ r ∈ rs, relevanceFloor < r.relevance_score ∧ docOfResult hits r = d)
          ∨ hasKey st.counts d = true) →
        hasKey (pass1 hits docIds rs st).counts d = true := by
  intro rs
  induction rs with
  | nil =>
    intro st _ d _ h
    rcases h with ⟨r, hr, _⟩ | hk
    · simp at hr
    · simpa [pass1] using hk
  | cons r rs ih =>
    intro st hinv d hd hdisj
    rw [pass1]
    dsimp only
    split_ifs with hcond hbreak
    · have hinv2 := inv1_step hinv hcond.1 hcond.2.1 hcond.2.2
      exact keys_full hnd hinv2.keysNodup hinv2.keysSub hbreak d hd
    · refine ih _ (inv1_step hinv hcond.1 hcond.2.1 hcond.2.2) d hd ?_
      rcases hdisj with ⟨r', hr', hq', hdoc'⟩ | hk
      · rcases List.mem_cons.mp hr' with rfl | hmem
        · right
          rw [hasKey_iff_mem_keys]
          simp [hdoc']
        · exact Or.inl ⟨r', hmem, hq', hdoc'⟩
      · right
        rw [hasKey_iff_mem_keys] at hk ⊢
        rw [List.map_append]
        exact List.mem_append.mpr (Or.inl hk)
    · refine ih _ hinv d hd ?_
      rcases hdisj with ⟨r', hr', hq', hdoc'⟩ | hk
      · rcases List.mem_cons.mp hr' with rfl | hmem
        · right
          cases hb : hasKey st.counts d
          · exact absurd ⟨hq', hdoc' ▸ hd, by rw [hdoc']; exact hb⟩ hcond
          · rfl
        · exact Or.inl ⟨r', hmem, hq', hdoc'⟩
      · exact Or.inr hk

theorem bumpCount_keys (counts : List (String × Nat)) (d : String) :
    (bumpCount counts d).map Prod.fst
      = if hasKey counts d then counts.map Prod.fst
        else counts.map Prod.fst ++ [d] := by
  unfold bumpCount
  by_cases hk : hasKey counts d
  · rw [if_pos hk, if_pos hk, List.map_map]
    apply List.map_congr_left
    intro p _
    by_cases hp : p.1 = d <;> simp [hp]
  · rw [if_neg hk, if_neg hk]
    simp

theorem bumpCount_mem {counts : List (String × Nat)} {d : String}
    {p : String × Nat} (hp : p ∈ bumpCount counts d) :
    (∃ q ∈ counts, p = q) ∨
    (∃ q ∈ counts, q.1 = d ∧ p = (q.1, q.2 + 1)) ∨ p = (d, 1) := by
  unfold bumpCount at hp
  by_cases hk : hasKey counts d
  · rw [if_pos hk] at hp
    rcases List.mem_map.mp hp with ⟨q, hq, rfl⟩
    by_cases hqd : q.1 = d
    · exact Or.inr (Or.inl ⟨q, hq, hqd, by simp [hqd]⟩)
    · exact Or.inl ⟨q, hq, by simp [hqd]⟩
  · rw [if_neg hk] at hp
    rcases List.mem_append.mp hp with h1 | h2
    · exact Or.inl ⟨p, h1, rfl⟩
    · exact Or.inr (Or.inr (by simpa using h2))

theorem inv2_step {hits : List Hit} {docIds : List String} {st : SelState}
    (inv : Inv2 hits docIds st) {r : RerankResult}
    (hq : relevanceFloor < r.relevance_score)
    (hd : docOfResult hits r ∈ docIds)
    (hc : countOf st.counts (docOfResult hits r) < 2) :
    Inv2 hits docIds ⟨st.relevant ++ [r], bumpCount st.counts (docOfResult hits r)⟩ := by
  constructor
  · intro x hx
    rcases List.mem_append.mp hx with h1 | h2
    · exact inv.qual x h1
    · have hxr : x = r := by simpa using h2
      subst hxr
      exact ⟨hq, hd⟩
  · show ((bumpCount st.counts (docOfResult hits r)).map Prod.fst).Nodup
    rw [bumpCount_keys]
    by_cases hk : hasKey st.counts (docOfResult hits r)
    · rw [if_pos hk]
      exact inv.keysNodup
    · rw [if_neg hk, List.nodup_append]
      refine ⟨inv.keysNodup, by simp, ?_⟩
      intro a ha hb
      have hab : a = docOfResult hits r := by simpa using hb
      subst hab
      rw [← hasKey_iff_mem_keys] at ha
      exact hk ha
  · intro p hp
    rcases bumpCount_mem hp with ⟨q, hq2, heq⟩ | ⟨q, hq2, _, heq⟩ | hpd
    · rw [heq]
      exact inv.keysSub q hq2
    · rw [heq]
      exact inv.keysSub q hq2
    · rw [hpd]
      exact hd
  · intro e
    show countOf (bumpCount st.counts (docOfResult hits r)) e = _
    rw [countOf_bumpCount, List.filter_append]
    by_cases he : docOfResult hits r = e
    · rw [if_pos he, List.length_append]
      have hone : (([r] : List RerankResult).filter
          (fun x => decide (docOfResult hits x = e))).length = 1 := by
        simp [he]
      rw [hone, inv.census e]
    · rw [if_neg he, List.length_append]
      have hzero : (([r] : List RerankResult).filter
          (fun x => decide (docOfResult hits x = e))).length = 0 := by
        simp [he]
      rw [hzero, inv.census e]
      omega
  · intro p hp
    rcases bumpCount_mem hp with ⟨q, hq2, heq⟩ | ⟨q, hq2, hqd, heq⟩ | hpd
    · rw [heq]
      exact inv.vals2 q hq2
    · have hce : countOf st.counts q.1 = q.2 :=
        countOf_eq_of_mem inv.keysNodup hq2
      rw [hqd] at hce
      rw [heq]
      simp only
      omega
    · rw [hpd]
      omega

theorem pass2_inv (hits : List Hit) (docIds : List String) :
    ∀ (rs : List RerankResult) (st : SelState), Inv2 hits docIds st →
      Inv2 hits docIds (pass2 hits docIds rs st) := by
  intro rs
  induction rs with
  | nil => intro st h; exact h
  | cons r rs ih =>
    intro st hinv
    rw [pass2]
    split_ifs with hcond hdup
    · exact ih _ hinv
    · exact ih _ (inv2_step hinv hcond.1 hcond.2.1 hcond.2.2.1)
    · exact ih _ hinv

theorem pass2_prefix (hits : List Hit) (docIds : List String) :
    ∀ (rs : List RerankResult) (st : SelState),
      ∃ rest, (pass2 hits docIds rs st).relevant = st.relevant ++ rest := by
  intro rs
  induction rs with
  | nil => intro st; exact ⟨[], by simp [pass2]⟩
  | cons r rs ih =>
    intro st
    rw [pass2]
    split_ifs with hcond hdup
    · exact ih st
    · obtain ⟨rest, hrest⟩ := ih ⟨st.relevant ++ [r], bumpCount st.counts (docOfResult hits r)⟩
      exact ⟨[r] ++ rest, by rw [hrest]; simp⟩
    · exact ih st

theorem pass2_len (hits : List Hit) (docIds : List String) :
    ∀ (rs : List RerankResult) (st : SelState),
      (pass2 hits docIds rs st).relevant.length ≤ max st.relevant.length 15 := by
  intro rs
  induction rs with
  | nil => intro st; simp [pass2]
  | cons r rs ih =>
    intro st
    rw [pass2]
    split_ifs with hcond hdup
    · exact ih st
    · have h15 : st.relevant.length < 15 := hcond.2.2.2
      have := ih ⟨st.relevant ++ [r], bumpCount st.counts (docOfResult hits r)⟩
      simp only [List.length_append, List.length_singleton] at this
      omega
    · exact ih st

theorem counts_length_le {docIds : List String} {counts : List (String × Nat)}
    (hnodup : (counts.map Prod.fst).Nodup) (hsub : ∀ p ∈ counts, p.1 ∈ docIds) :
    counts.length ≤ docIds.length := by
  have h1 : (counts.map Prod.fst).toFinset.card = counts.length := by
    rw [List.toFinset_card_of_nodup hnodup, List.length_map]
  have h2 : (counts.map Prod.fst).toFinset ⊆ docIds.toFinset := by
    intro a ha
    rw [List.mem_toFinset] at ha ⊢
    rcases List.mem_map.mp ha with ⟨p, hp, rfl⟩
    exact hsub p hp
  have h3 := Finset.card_le_card h2
  have h4 := docIds.toFinset_card_le
  omega

theorem pass1_subset (hits : List Hit) (docIds : List String) :
    ∀ (rs : List RerankResult) (st : SelState) (x : RerankResult),
      x ∈ (pass1 hits docIds rs st).relevant → x ∈ st.relevant ∨ x ∈ rs := by
  intro rs
  induction rs with
  | nil =>
    intro st x hx
    exact Or.inl (by simpa [pass1] using hx)
  | cons r rs ih =>
    intro st x hx
    rw [pass1] at hx
    dsimp only at hx
    split_ifs at hx with hcond hbreak
    · rcases List.mem_append.mp hx with h1 | h2
      · exact Or.inl h1
      · exact Or.inr (by simpa using List.mem_cons.mpr (Or.inl (by simpa using h2)))
    · rcases ih _ x hx with h1 | h2
      · rcases List.mem_append.mp h1 with ha | hb
        · exact Or.inl ha
        · exact Or.inr (List.mem_cons.mpr (Or.inl (by simpa using hb)))
      · exact Or.inr (List.mem_cons.mpr (Or.inr h2))
    · rcases ih _ x hx with h1 | h2
      · exact Or.inl h1
      · exact Or.inr (List.mem_cons.mpr (Or.inr h2))

theorem pass2_subset (hits : List Hit) (docIds : List String) :
    ∀ (rs : List RerankResult) (st : SelState) (x : RerankResult),
      x ∈ (pass2 hits docIds rs st).relevant → x ∈ st.relevant ∨ x ∈ rs := by
  intro rs
  induction rs with
  | nil =>
    intro st x hx
    exact Or.inl (by simpa [pass2] using hx)
  | cons r rs ih =>
    intro st x hx
    rw [pass2] at hx
    split_ifs at hx with hcond hdup
    · rcases ih _ x hx with h1 | h2
      · exact Or.inl h1
      · exact Or.inr (List.mem_cons.mpr (Or.inr h2))
    · rcases ih _ x hx with h1 | h2
      · rcases List.mem_append.mp h1 with ha | hb
        · exact Or.inl ha
        · exact Or.inr (List.mem_cons.mpr (Or.inl (by simpa using hb)))
      · exact Or.inr (List.mem_cons.mpr (Or.inr h2))
    · rcases ih _ x hx with h1 | h2
      · exact Or.inl h1
      · exact Or.inr (List.mem_cons.mpr (Or.inr h2))

theorem selectRelevant_subset (hits : List Hit) (docIds : List String)
    (reranked : List RerankResult) (x : RerankResult)
    (hx : x ∈ (selectRelevant hits docIds reranked).relevant) : x ∈ reranked := by
  unfold selectRelevant at hx
  rcases pass2_subset hits docIds reranked _ x hx with h1 | h2
  · rcases pass1_subset hits docIds reranked _ x h1 with ha | hb
    · simp at ha
    · exact hb
  · exact h2

/-- The invariant `Inv1` holds at the empty initial state. -/
theorem Inv1.initial (hits : List Hit) (docIds : List String) :
    Inv1 hits docIds ⟨[], []⟩ := by
  constructor
  · intro r hr; simp at hr
  · simp
  · intro p hp; simp at hp
  · intro d; simp [countOf]
  · intro p hp; simp at hp
  · simp

/-- C3 (amended): with a non-empty, duplicate-free allowed set, the two-pass
selection admits only results above the `0.01` relevance floor whose
document is allowed; pass 1 forms a prefix of the final selection in which
each document appears at most once and which covers every allowed document
that has a qualifying candidate (so every such document is represented
before any document receives a second result); the final selection holds at
most 2 results per document; and its total size is at most
`max 15 |docIds|` — 15 is enforced only by pass 2, while pass 1 may admit
one result for each allowed document. -/
theorem c3_selection_amended (hits : List Hit) (docIds : List String)
    (reranked : List RerankResult) (hne : docIds ≠ []) (hnd : docIds.Nodup) :
    (∀ r ∈ (selectRelevant hits docIds reranked).relevant,
        relevanceFloor < r.relevance_score ∧ docOfResult hits r ∈ docIds) ∧
    (∃ rest, (selectRelevant hits docIds reranked).relevant
        = (pass1 hits docIds reranked ⟨[], []⟩).relevant ++ rest) ∧
    (∀ d, ((pass1 hits docIds reranked ⟨[], []⟩).relevant.filter
        (fun r => decide (docOfResult hits r = d))).length ≤ 1) ∧
    (∀ d ∈ docIds,
      (∃ r ∈ reranked, relevanceFloor < r.relevance_score ∧ docOfResult hits r = d) →
      ∃ r ∈ (pass1 hits docIds reranked ⟨[], []⟩).relevant, docOfResult hits r = d) ∧
    (∀ d, ((selectRelevant hits docIds reranked).relevant.filter
        (fun r => decide (docOfResult hits r = d))).length ≤ 2) ∧
    (selectRelevant hits docIds reranked).relevant.length ≤ max 15 docIds.length := by
  have hinv1 : Inv1 hits docIds (pass1 hits docIds reranked ⟨[], []⟩) :=
    pass1_inv hits docIds reranked ⟨[], []⟩ (Inv1.initial hits docIds)
  have hinv2start : Inv2 hits docIds (pass1 hits docIds reranked ⟨[], []⟩) :=
    ⟨hinv1.qual, hinv1.keysNodup, hinv1.keysSub, hinv1.census,
      fun p hp => by rw [hinv1.vals1 p hp]; omega⟩
  have hinv2 : Inv2 hits docIds (selectRelevant hits docIds reranked) :=
    pass2_inv hits docIds reranked _ hinv2start
  refine ⟨?_, ?_, ?_, ?_, ?_, ?_⟩
  · exact fun r hr => hinv2.qual r hr
  · exact pass2_prefix hits docIds reranked _
  · intro d
    rw [← hinv1.census d]
    exact countOf_le_of_valbound (fun p hp => le_of_eq (hinv1.vals1 p hp)) d
  · intro d hd hex
    have hkey : hasKey (pass1 hits docIds reranked ⟨[], []⟩).counts d = true :=
      pass1_covers hits hnd reranked ⟨[], []⟩ (Inv1.initial hits docIds) d hd
        (Or.inl hex)
    rw [hasKey_iff_mem_keys] at hkey
    rcases List.mem_map.mp hkey with ⟨p, hp, hpd⟩
    have hcnt : countOf (pass1 hits docIds reranked ⟨[], []⟩).counts p.1 = p.2 :=
      countOf_eq_of_mem hinv1.keysNodup hp
    rw [hinv1.vals1 p hp] at hcnt
    rw [hpd] at hcnt
    have hlen : 0 < ((pass1 hits docIds reranked ⟨[], []⟩).relevant.filter
        (fun r => decide (docOfResult hits r = d))).length := by
      rw [← hinv1.census d, hcnt]
      omega
    rcases List.exists_mem_of_length_pos hlen with ⟨r, hr⟩
    have := List.mem_filter.mp hr
    exact ⟨r, this.1, of_decide_eq_true this.2⟩
  · intro d
    rw [← hinv2.census d]
    exact countOf_le_of_valbound hinv2.vals2 d
  · have h1 := pass2_len hits docIds reranked (pass1 hits docIds reranked ⟨[], []⟩)
    have h2 : (pass1 hits docIds reranked ⟨[], []⟩).relevant.length
        ≤ docIds.length := by
      rw [hinv1.lenEq]
      exact counts_length_le hinv1.keysNodup hinv1.keysSub
    unfold selectRelevant
    omega

theorem c3_selection_amended_witness :
    (selectRelevant [⟨"t", "a", 1, none, none, none, none, none⟩] ["a"]
        [⟨0, mkRat 1 2⟩]).relevant.length ≤ max 15 (["a"] : List String).length :=
  (c3_selection_amended [⟨"t", "a", 1, none, none, none, none, none⟩] ["a"]
    [⟨0, mkRat 1 2⟩] (by decide) (by decide)).2.2.2.2.2

/-- 16 distinct allowed documents, one qualifying reranked hit each. -/
def cexDocIds : List String :=
  ["da", "db", "dc", "dd", "de", "df", "dg", "dh",
   "di", "dj", "dk", "dl", "dm", "dn", "dp", "dq"]

def cexHits : List Hit :=
  cexDocIds.map (fun d => ⟨"t", d, 1, none, none, none, none, none⟩)

def cexReranked : List RerankResult :=
  (List.range 16).map (fun i => ⟨i, mkRat 1 2⟩)

/-- C3 (counterexample): with 16 allowed documents each holding one
qualifying candidate, pass 1 (which has no overall cap) selects all 16, so
the final selection has 16 > 15 results, refuting the claimed overall cap
of 15. -/
theorem c3_selection_counterexample :
    cexDocIds.Nodup ∧ cexDocIds ≠ [] ∧
    (∀ r ∈ cexReranked,
      relevanceFloor < r.relevance_score ∧ docOfResult cexHits r ∈ cexDocIds) ∧
    (selectRelevant cexHits cexDocIds cexReranked).relevant.length = 16 := by
  refine ⟨by decide, by decide, by decide, by decide⟩

/-! ### Citation grounding (C2) and the metadata shortcut (C5) -/

theorem citeLoop_grounded (chunks : List ChunkInfo) :
    ∀ (qs seen : List (List Char)) (cit : CitationOut),
      cit ∈ citeLoop chunks qs seen →
      ∃ c ∈ chunks, c.document_id = cit.document_id ∧
        cit.text_snippet.toList <:+: normChars c.text.toList := by
  intro qs
  induction qs with
  | nil =>
    intro seen cit h
    simp [citeLoop] at h
  | cons q qs ih =>
    intro seen cit h
    rw [citeLoop] at h
    split_ifs at h with hseen
    · exact ih seen cit h
    · cases hf : chunks.find? (fun c => containsSub (normChars c.text.toList) q) with
      | none =>
        rw [hf] at h
        exact ih _ cit h
      | some c =>
        rw [hf] at h
        rcases List.mem_cons.mp h with rfl | hmem
        · refine ⟨c, List.mem_of_find?_eq_some hf, rfl, ?_⟩
          have hpred := List.find?_some hf
          have hsub : containsSub (normChars c.text.toList) q = true := by
            simpa using hpred
          exact (containsSub_iff _ _).mp hsub
        · exact ih _ cit hmem

theorem citeLoop_nodup (chunks : List ChunkInfo) :
    ∀ (qs seen : List (List Char)),
      (((citeLoop chunks qs seen).map CitationOut.text_snippet).Nodup ∧
       ∀ cit ∈ citeLoop chunks qs seen, cit.text_snippet.toList ∉ seen) := by
  intro qs
  induction qs with
  | nil =>
    intro seen
    constructor <;> simp [citeLoop]
  | cons q qs ih =>
    intro seen
    rw [citeLoop]
    split_ifs with hseen
    · exact ih seen
    · cases hf : chunks.find? (fun c => containsSub (normChars c.text.toList) q) with
      | none => exact ih seen
      | some c =>
        obtain ⟨ihn, ihs⟩ := ih (seen ++ [q])
        constructor
        · rw [List.map_cons, List.nodup_cons]
          refine ⟨?_, ihn⟩
          intro hcontra
          rcases List.mem_map.mp hcontra with ⟨cit, hcit, hsnip⟩
          refine ihs cit hcit ?_
          have hq : cit.text_snippet.toList = q := by
            rw [hsnip]
            rfl
          rw [hq]
          exact List.mem_append.mpr (Or.inr (by simp))
        · intro cit hcit
          rcases List.mem_cons.mp hcit with rfl | hmem
          · exact fun hcon => hseen hcon
          · intro hcon
            exact ihs cit hmem (List.mem_append.mpr (Or.inl hcon))

theorem synthBranch_spec (query : String) (docIds : List String)
    (searchHits : List Hit) (sel : SelState) (llm : String → String) :
    (∀ cit ∈ (synthBranch query docIds searchHits sel llm).citations,
      ∃ c ∈ chunkMapOf searchHits sel, c.document_id = cit.document_id ∧
        cit.text_snippet.toList <:+: normChars c.text.toList) ∧
    (((synthBranch query docIds searchHits sel llm).citations.map
        CitationOut.text_snippet).Nodup) ∧
    ((synthBranch query docIds searchHits sel llm).citations ≠ [] →
      (synthBranch query docIds searchHits sel llm).confidence = 1) ∧
    ((synthBranch query docIds searchHits sel llm).citations = [] →
      (synthBranch query docIds searchHits sel llm).confidence = mkRat 1 2) := by
  refine ⟨?_, ?_, ?_, ?_⟩
  · intro cit hcit
    exact citeLoop_grounded _ _ _ cit hcit
  · exact (citeLoop_nodup _ _ _).1
  · intro h
    show (if _ then _ else _) = _
    rw [if_neg (by simpa [List.isEmpty_iff] using h)]
  · intro h
    show (if _ then _ else _) = _
    rw [if_pos (by simpa [List.isEmpty_iff] using h)]

theorem llm_not_mem_embed_search (b : Bool) :
    SvcCall.llm ∉ ((if b then [SvcCall.scroll] else [])
      ++ [SvcCall.embed, SvcCall.search]) := by
  cases b <;> decide

theorem llm_not_mem_embed_search_rerank (b : Bool) :
    SvcCall.llm ∉ ((if b then [SvcCall.scroll] else [])
      ++ [SvcCall.embed, SvcCall.search, SvcCall.rerank]) := by
  cases b <;> decide

/-- C2: every citation returned by `QueryEngine.query` carries a (already
whitespace-normalized) `text_snippet` that occurs as a substring of the
normalized text of some retrieved excerpt stored under the citation's
stated `document_id`; unverifiable bracket-quotes are dropped, never
fabricated; duplicate verified quotes appear at most once; and when the
synthesis step ran (an LLM call is in the trace), the confidence is 1 if at
least one citation verified and `0.5` (= `mkRat 1 2`) if none did though an
answer text exists. -/
theorem c2_grounding (query : String) (docIds : List String) (store : List Hit)
    (searchHits : List Hit) (rerank : List String → List RerankResult)
    (llm : String → String)
    (hIdx : ∀ r ∈ rerank (searchHits.map Hit.text), r.index < searchHits.length) :
    (∀ cit ∈ (queryModel query docIds store searchHits rerank llm).1.citations,
      ∃ h ∈ searchHits, h.document_id = cit.document_id ∧
        cit.text_snippet.toList <:+: normChars (stripCh h.text.toList)) ∧
    (((queryModel query docIds store searchHits rerank llm).1.citations.map
        CitationOut.text_snippet).Nodup) ∧
    ((queryModel query docIds store searchHits rerank llm).1.citations ≠ [] →
      (queryModel query docIds store searchHits rerank llm).1.confidence = 1) ∧
    (SvcCall.llm ∈ (queryModel query docIds store searchHits rerank llm).2 →
      (queryModel query docIds store searchHits rerank llm).1.citations = [] →
      (queryModel query docIds store searchHits rerank llm).1.confidence = mkRat 1 2) := by
  unfold queryModel
  split_ifs
  all_goals try dsimp only
  all_goals try split_ifs
  all_goals try dsimp only
  all_goals try split_ifs
  all_goals
    first
      | (refine ⟨?_, ?_, ?_, ?_⟩ <;> simp)
      | (refine ⟨?_, (synthBranch_spec query docIds searchHits _ llm).2.1,
          fun h => (synthBranch_spec query docIds searchHits _ llm).2.2.1 h,
          fun _ h => (synthBranch_spec query docIds searchHits _ llm).2.2.2 h⟩
         intro cit hcit
         rcases (synthBranch_spec query docIds searchHits _ llm).1 cit hcit with
           ⟨c, hc, hcid, hinfix⟩
         rw [chunkMapOf] at hc
         rcases List.mem_map.mp hc with ⟨r, hr, rfl⟩
         have hridx : r.index < searchHits.length :=
           hIdx r (selectRelevant_subset searchHits docIds _ r hr)
         have hget : (searchHits[r.index]?).getD default = searchHits[r.index] := by
           rw [List.getElem?_eq_getElem hridx]
           rfl
         rw [hget] at hcid hinfix
         exact ⟨searchHits[r.index], List.getElem_mem hridx, hcid, hinfix⟩)

theorem c2_grounding_witness :
    (queryModel "q" ["a"] []
        [⟨"hello  world text", "a", 1, none, none, none, none, none⟩]
        (fun _ => [⟨0, mkRat 1 2⟩])
        (fun _ => "In [Doc], [[hello world]] end")).1.confidence = 1 :=
  (c2_grounding "q" ["a"] []
    [⟨"hello  world text", "a", 1, none, none, none, none, none⟩]
    (fun _ => [⟨0, mkRat 1 2⟩])
    (fun _ => "In [Doc], [[hello world]] end") (by decide)).2.2.1 (by decide)

theorem groupDocMeta_keys_nodup :
    ∀ (hs : List Hit) (acc : List (String × DocMetaEntry)),
      (acc.map Prod.fst).Nodup → ((groupDocMeta hs acc).map Prod.fst).Nodup := by
  intro hs
  induction hs with
  | nil =>
    intro acc h
    simpa [groupDocMeta] using h
  | cons h hs ih =>
    intro acc hacc
    rw [groupDocMeta]
    split_ifs with hk
    · exact ih acc hacc
    · refine ih _ ?_
      rw [List.map_append, List.nodup_append]
      refine ⟨hacc, by simp, ?_⟩
      intro a ha hb
      have hab : a = h.document_id := by simpa using hb
      subst hab
      apply hk
      rw [List.any_eq_true]
      rcases List.mem_map.mp ha with ⟨p, hp, hpe⟩
      exact ⟨p, hp, by simp [hpe]⟩

/-- C5 (counterexample): a hierarchy-keyword query over a non-empty allowed
set does *not* always bypass semantic search: when the store holds no
points for those ids the scroll comes back empty, the engine falls through,
and the embedding service is called; the answer is the no-results terminal
with confidence 0, not a metadata answer with confidence 1. -/
theorem c5_metadata_shortcut_counterexample :
    (["a"] : List String) ≠ [] ∧
    hasHierarchyKeyword "What is the document type?" = true ∧
    SvcCall.embed ∈ (queryModel "What is the document type?" ["a"] [] []
        (fun _ => []) (fun _ => "")).2 ∧
    (queryModel "What is the document type?" ["a"] [] [] (fun _ => [])
        (fun _ => "")).1.confidence = 0 := by
  refine ⟨by decide, by decide, by decide, by decide⟩

/-- C5 (amended): a query containing one of the hierarchy keywords, with a
non-empty allowed set, bypasses semantic search and answers from stored
metadata — deduplicated by document id, citations empty, confidence
exactly 1, and the scroll as the only external call (no embed, rerank or
LLM) — *provided* the metadata scroll returns at least one stored point for
the allowed ids. -/
theorem c5_metadata_shortcut_amended (query : String) (docIds : List String)
    (store : List Hit) (searchHits : List Hit)
    (rerank : List String → List RerankResult) (llm : String → String)
    (hkw : hasHierarchyKeyword query = true)
    (hne : docIds.isEmpty = false)
    (hscroll : (scrollDocs store docIds).isEmpty = false) :
    queryModel query docIds store searchHits rerank llm
      = (⟨metadataAnswer (scrollDocs store docIds), [], 1⟩, [SvcCall.scroll]) ∧
    ((groupDocMeta (scrollDocs store docIds) []).map Prod.fst).Nodup := by
  constructor
  · unfold queryModel
    rw [if_neg (by simp [hne]), if_pos (by simp [hkw, hscroll])]
  · exact groupDocMeta_keys_nodup _ [] (by simp)

theorem c5_metadata_shortcut_amended_witness :
    queryModel "What is the document type?" ["a"]
        [⟨"t", "a", 1, none, some "Doc A", some "master", some 1, none⟩] []
        (fun _ => []) (fun _ => "")
      = (⟨metadataAnswer (scrollDocs
            [⟨"t", "a", 1, none, some "Doc A", some "master", some 1, none⟩] ["a"]),
          [], 1⟩, [SvcCall.scroll]) :=
  (c5_metadata_shortcut_amended "What is the document type?" ["a"]
    [⟨"t", "a", 1, none, some "Doc A", some "master", some 1, none⟩] []
    (fun _ => []) (fun _ => "") (by decide) (by decide) (by decide)).1

end Contracts
